import Mathlib

/-!
Verification of the PDF inspection-data extractor (detect_document_type /
extract_data_by_type and the pattern tables PATTERNS_TYPE_1, PATTERNS_TYPE_2
of app.py; streamlit.py contains the identical core).

Page text is modelled as List Char.  The regular expressions used by the
source are built from a fixed, small set of constructs: literal text,
greedy "\s+", greedy "[^\n]+", lazy "[\s\S]+?", one capture group, and one
lookahead of the form "(?=\s+literal)".  The engine below implements exactly
Python's backtracking search semantics for this fragment: re.search tries
each start position left to right, and at a fixed position quantifiers are
expanded in preference order (greedy: longest first; lazy: shortest first),
later quantifiers backtracking before earlier ones.
-/

/-- Python's whitespace class restricted to its ASCII members, as matched by
the patterns' "\s" and by str.strip / str.split on the texts concerned. -/
def isWS (c : Char) : Bool :=
  c = ' ' || c = '\t' || c = '\n' || c = '\r' || c = Char.ofNat 11 || c = Char.ofNat 12

/-- The two character classes appearing in the source's patterns. -/
inductive CC where
  | notNL
  | anyChar
deriving DecidableEq

/-- Semantics of a character class: "[^\n]" and "[\s\S]". -/
def CC.test : CC → Char → Bool
  | CC.notNL, c => c != '\n'
  | CC.anyChar, _ => true

/-- One token of a source pattern: literal text, greedy "\s+", a captured
"+"-quantified class (greedy or lazy), an uncaptured greedy "[^\n]+", or a
lookahead "(?=\s+literal)". -/
inductive Tok where
  | lit (s : List Char)
  | ws
  | cap (cc : CC) (lz : Bool)
  | pl (cc : CC)
  | look (s : List Char)
deriving DecidableEq

/-- Length of the maximal run of characters satisfying p at the front. -/
def runLen (p : Char → Bool) (s : List Char) : Nat :=
  (s.takeWhile p).length

/-- Candidate consumption lengths for a greedy "+": m, m-1, ..., 1. -/
def greedyIdx (m : Nat) : List Nat :=
  (List.range m).map (fun i => m - i)

/-- Candidate consumption lengths for a lazy "+?": 1, 2, ..., m. -/
def lazyIdx (m : Nat) : List Nat :=
  (List.range m).map (fun i => i + 1)

/-- First success of f over a list of candidates, in order. -/
def firstSome (f : Nat → Option (List Char)) : List Nat → Option (List Char)
  | [] => none
  | k :: ks =>
    match f k with
    | some r => some r
    | none => firstSome f ks

/-- Success of the lookahead "(?=\s+l)" against the remaining input s:
some nonempty prefix of the leading whitespace run, followed by l. -/
def lookOk (l : List Char) (s : List Char) : Bool :=
  (lazyIdx (runLen isWS s)).any (fun k => l.isPrefixOf (s.drop k))

/-- Backtracking matcher: does the token list match a prefix of s (the rest
of the text to the end), and if so what did the capture group take?  acc is
the capture recorded so far. -/
def matchToks (ts : List Tok) (s : List Char) (acc : Option (List Char)) :
    Option (List Char) :=
  match ts with
  | [] => some (acc.getD [])
  | Tok.lit l :: ts' =>
    if l.isPrefixOf s then matchToks ts' (s.drop l.length) acc else none
  | Tok.ws :: ts' =>
    firstSome (fun k => matchToks ts' (s.drop k) acc) (greedyIdx (runLen isWS s))
  | Tok.cap cc lz :: ts' =>
    firstSome (fun k => matchToks ts' (s.drop k) (some (s.take k)))
      (if lz then lazyIdx (runLen cc.test s) else greedyIdx (runLen cc.test s))
  | Tok.pl cc :: ts' =>
    firstSome (fun k => matchToks ts' (s.drop k) acc) (greedyIdx (runLen cc.test s))
  | Tok.look l :: ts' =>
    if lookOk l s then matchToks ts' s acc else none

/-- re.search: try the match at every start position, leftmost first,
returning the capture group of the first successful position. -/
def searchToks (ts : List Tok) : List Char → Option (List Char)
  | [] => matchToks ts [] none
  | c :: cs =>
    match matchToks ts (c :: cs) none with
    | some r => some r
    | none => searchToks ts cs

/-- Python str.strip(): drop whitespace from both ends. -/
def pyStrip (s : List Char) : List Char :=
  ((s.dropWhile isWS).reverse.dropWhile isWS).reverse

/-- One step of splitting on whitespace, scanning from the right: a
whitespace character opens a fresh (possibly empty) chunk, any other
character is prepended to the current chunk. -/
def splitStep (c : Char) (acc : List (List Char)) : List (List Char) :=
  if isWS c then [] :: acc
  else
    match acc with
    | [] => [[c]]
    | w :: ws => (c :: w) :: ws

/-- All chunks of s delimited by whitespace characters, empties included. -/
def pySplitAll (s : List Char) : List (List Char) :=
  s.foldr splitStep [[]]

/-- Python str.split() with no argument: maximal non-whitespace runs,
empties dropped. -/
def pySplit (s : List Char) : List (List Char) :=
  (pySplitAll s).filter (fun w => w ≠ [])

/-- value.strip() followed by " ".join(value.split()), as applied to every
captured group in extract_data_by_type. -/
def normalizeCapture (s : List Char) : List Char :=
  List.intercalate [' '] (pySplit (pyStrip s))

/-- A single-line field: label, whitespace, then the rest of the line
(the shape "Label\s+([^\n]+)"). -/
def lineField (label : String) : List Tok :=
  [Tok.lit label.toList, Tok.ws, Tok.cap CC.notNL false]

/-- PATTERNS_TYPE_1 of the source, token by token. -/
def PATTERNS_TYPE_1 : List (String × List Tok) :=
  [ ("Inspection", [Tok.cap CC.notNL false, Tok.look ("Store ID and Name").toList]),
    ("Store ID and Name",
      [Tok.lit ("Store ID and Name").toList, Tok.ws, Tok.cap CC.anyChar true,
       Tok.ws, Tok.lit ("Tracker").toList]),
    ("Tracker",
      [Tok.lit ("Tracker").toList, Tok.ws, Tok.cap CC.anyChar true,
       Tok.ws, Tok.lit ("Inspector").toList]),
    ("Inspector", lineField "Inspector"),
    ("Project Team PIC", lineField "Project Team PIC"),
    ("Project Team Present", lineField "Project Team Present"),
    ("Contractor PIC", lineField "Contractor PIC"),
    ("Contractor Present", lineField "Contractor Present"),
    ("Issue Date", lineField "Issue Date"),
    ("Inspection Date", lineField "Inspection Date"),
    ("Report Date", lineField "Report Date"),
    ("Handover Date", lineField "Handover Date") ]

/-- The compound pattern "Label\s+[^\n]+\s+Name\s+([^\n]+)". -/
def compoundName (label : String) : List Tok :=
  [Tok.lit label.toList, Tok.ws, Tok.pl CC.notNL, Tok.ws,
   Tok.lit ("Name").toList, Tok.ws, Tok.cap CC.notNL false]

/-- PATTERNS_TYPE_2 of the source, token by token. -/
def PATTERNS_TYPE_2 : List (String × List Tok) :=
  [ ("Document No.", lineField "Document No."),
    ("Audit Title", lineField "Audit Title"),
    ("Site Name", lineField "Site Name"),
    ("Location",
      [Tok.lit ("Location").toList, Tok.ws, Tok.cap CC.anyChar true,
       Tok.ws, Tok.lit ("Contractor Present").toList]),
    ("Contractor Present", lineField "Contractor Present"),
    ("Contractor Name", compoundName "Contractor Present"),
    ("Project PIC Present", lineField "Project PIC Present"),
    ("Project PIC Name", compoundName "Project PIC Present"),
    ("Inspected by", lineField "Inspected by"),
    ("Inspection Date", lineField "Inspection Date"),
    ("Prepared by", lineField "Prepared by") ]

/-- detect_document_type: re.search of the literal "Document No." decides
type_2, else the literal "Store ID and Name" decides type_1, else None. -/
def detect_document_type (text : List Char) : Option String :=
  if (searchToks [Tok.lit ("Document No.").toList] text).isSome then some "type_2"
  else if (searchToks [Tok.lit ("Store ID and Name").toList] text).isSome then some "type_1"
  else none

/-- The rule table selected by extract_data_by_type: PATTERNS_TYPE_1 when
doc_type == "type_1", else PATTERNS_TYPE_2 (doc_type is Optional, mirroring
the Python value space, where None models Python's None). -/
def patternsFor (doc_type : Option String) : List (String × List Tok) :=
  if doc_type = some "type_1" then PATTERNS_TYPE_1 else PATTERNS_TYPE_2

/-- The loop body of extract_data_by_type: for each field in order, search;
on a match store the stripped, whitespace-collapsed group; else store None. -/
def extractFields (text : List Char) : List (String × List Tok) → List (String × Option (List Char))
  | [] => []
  | fp :: rest =>
    (fp.1, Option.map normalizeCapture (searchToks fp.2 text)) :: extractFields text rest

/-- extract_data_by_type: a Python dict in insertion order is an association
list; the rule fields in table order, then the "Document Type" entry. -/
def extract_data_by_type (text : List Char) (doc_type : Option String) :
    List (String × Option (List Char)) :=
  extractFields text (patternsFor doc_type) ++
    [("Document Type", Option.map String.toList doc_type)]

/-- The per-document body of process_zip_file: classify, skip None,
otherwise extract and append the "Source File" entry. -/
def process_pdf_record (text : List Char) (pdf_name : String) :
    Option (List (String × Option (List Char))) :=
  match detect_document_type text with
  | none => none
  | some dt =>
    some (extract_data_by_type text (some dt) ++ [("Source File", some pdf_name.toList)])

/-- The spec-level notion "text contains the literal marker l". -/
def ContainsLit (l s : List Char) : Prop :=
  ∃ p q, s = p ++ l ++ q

/-- Declarative matching semantics: ToksMatch ts m rest tc holds when the
token list ts matches exactly the consumed segment m, followed by the
(unconsumed) remainder rest, producing capture tc.  The lookahead token may
inspect rest, which is why rest is carried. -/
inductive ToksMatch : List Tok → List Char → List Char → Option (List Char) → Prop where
  | nil : ∀ rest, ToksMatch [] [] rest none
  | lit : ∀ l ts m rest c, ToksMatch ts m rest c →
      ToksMatch (Tok.lit l :: ts) (l ++ m) rest c
  | ws : ∀ w ts m rest c, w ≠ [] → (∀ x ∈ w, isWS x = true) →
      ToksMatch ts m rest c → ToksMatch (Tok.ws :: ts) (w ++ m) rest c
  | pl : ∀ cc w ts m rest c, w ≠ [] → (∀ x ∈ w, cc.test x = true) →
      ToksMatch ts m rest c → ToksMatch (Tok.pl cc :: ts) (w ++ m) rest c
  | cap : ∀ cc lz w ts m rest tc, w ≠ [] → (∀ x ∈ w, cc.test x = true) →
      ToksMatch ts m rest tc →
      ToksMatch (Tok.cap cc lz :: ts) (w ++ m) rest (some (tc.getD w))
  | look : ∀ l ts m rest c, lookOk l (m ++ rest) = true →
      ToksMatch ts m rest c → ToksMatch (Tok.look l :: ts) m rest c

/-! ### Literal search is substring containment -/

theorem isPrefixOf_eq_ex (m : List Char) : ∀ s : List Char,
    m.isPrefixOf s = true ↔ ∃ t, s = m ++ t := by
  induction m with
  | nil => intro s; simp [List.isPrefixOf]
  | cons a m ih =>
    intro s
    cases s with
    | nil => simp [List.isPrefixOf]
    | cons b s' =>
      simp only [List.isPrefixOf, Bool.and_eq_true, beq_iff_eq, ih, List.cons_append]
      constructor
      · rintro ⟨hab, t, ht⟩
        exact ⟨t, by rw [hab, ht]⟩
      · rintro ⟨t, ht⟩
        injection ht with h1 h2
        exact ⟨h1.symm, t, h2⟩

theorem matchToks_lit_single (m s : List Char) (acc : Option (List Char)) :
    matchToks [Tok.lit m] s acc = if m.isPrefixOf s then some (acc.getD []) else none := by
  by_cases h : m.isPrefixOf s <;> simp [matchToks, h]

theorem searchLit_iff (m : List Char) : ∀ s : List Char,
    (searchToks [Tok.lit m] s).isSome = true ↔ ContainsLit m s := by
  intro s
  induction s with
  | nil =>
    rw [searchToks, matchToks_lit_single]
    by_cases hp : m.isPrefixOf [] = true
    · rcases (isPrefixOf_eq_ex m []).mp hp with ⟨t, ht⟩
      rw [if_pos hp]
      exact iff_of_true rfl ⟨[], t, by simpa using ht⟩
    · rw [if_neg hp]
      simp only [Option.isSome_none, Bool.false_eq_true, false_iff]
      rintro ⟨p, q, hpq⟩
      rcases List.append_eq_nil.mp (List.append_eq_nil.mp hpq.symm).1 with ⟨h1, h2⟩
      exact hp ((isPrefixOf_eq_ex m []).mpr ⟨[], by simp [h2]⟩)
  | cons c cs ih =>
    rw [searchToks, matchToks_lit_single]
    by_cases hp : m.isPrefixOf (c :: cs) = true
    · rcases (isPrefixOf_eq_ex m (c :: cs)).mp hp with ⟨t, ht⟩
      rw [if_pos hp]
      exact iff_of_true rfl ⟨[], t, by simpa using ht⟩
    · rw [if_neg hp]
      show (searchToks [Tok.lit m] cs).isSome = true ↔ ContainsLit m (c :: cs)
      rw [ih]
      constructor
      · rintro ⟨p, q, hpq⟩
        exact ⟨c :: p, q, by simp [hpq]⟩
      · rintro ⟨p, q, hpq⟩
        cases p with
        | nil =>
          exact absurd ((isPrefixOf_eq_ex m (c :: cs)).mpr ⟨q, by simpa using hpq⟩) hp
        | cons a p' =>
          injection hpq with h1 h2
          exact ⟨p', q, h2⟩

/-- C1: classification precedence — a text containing the literal marker
"Document No." classifies as type_2 (TypeB), regardless of any other
content; otherwise a text containing "Store ID and Name" classifies as
type_1 (TypeA); otherwise the classifier returns None (Unknown).  The
"Document No." check is therefore evaluated strictly first: a text with
both markers resolves to type_2. -/
theorem C1_classify_markers : ∀ text : List Char,
    (ContainsLit ("Document No.").toList text →
      detect_document_type text = some "type_2") ∧
    (¬ ContainsLit ("Document No.").toList text →
      ContainsLit ("Store ID and Name").toList text →
      detect_document_type text = some "type_1") ∧
    (¬ ContainsLit ("Document No.").toList text →
      ¬ ContainsLit ("Store ID and Name").toList text →
      detect_document_type text = none) := by
  intro text
  refine ⟨?_, ?_, ?_⟩
  · intro h
    have e := (searchLit_iff _ text).mpr h
    unfold detect_document_type
    rw [e]
    simp
  · intro h1 h2
    have e1 : (searchToks [Tok.lit ("Document No.").toList] text).isSome = false := by
      have := mt (searchLit_iff ("Document No.").toList text).mp h1
      rwa [Bool.not_eq_true] at this
    have e2 := (searchLit_iff _ text).mpr h2
    unfold detect_document_type
    rw [e1, e2]
    simp
  · intro h1 h2
    have e1 : (searchToks [Tok.lit ("Document No.").toList] text).isSome = false := by
      have := mt (searchLit_iff ("Document No.").toList text).mp h1
      rwa [Bool.not_eq_true] at this
    have e2 : (searchToks [Tok.lit ("Store ID and Name").toList] text).isSome = false := by
      have := mt (searchLit_iff ("Store ID and Name").toList text).mp h2
      rwa [Bool.not_eq_true] at this
    unfold detect_document_type
    rw [e1, e2]
    simp

/-- C1 witness: the three branches at concrete inputs, including the
both-markers precedence case. -/
theorem C1_classify_markers_witness :
    detect_document_type ("Document No. and Store ID and Name").toList = some "type_2" ∧
    detect_document_type ("xx Store ID and Name yy").toList = some "type_1" ∧
    detect_document_type ("nothing here").toList = none := by
  refine ⟨(C1_classify_markers _).1 ⟨[], (" and Store ID and Name").toList, by decide⟩,
    (C1_classify_markers _).2.1
      (fun hc => absurd ((searchLit_iff _ _).mpr hc) (by decide))
      ⟨("xx ").toList, (" yy").toList, by decide⟩,
    (C1_classify_markers _).2.2
      (fun hc => absurd ((searchLit_iff _ _).mpr hc) (by decide))
      (fun hc => absurd ((searchLit_iff _ _).mpr hc) (by decide))⟩

/-! ### Record shape and field lookup -/

theorem extractFields_keys (text : List Char) :
    ∀ rules : List (String × List Tok),
    (extractFields text rules).map Prod.fst = rules.map Prod.fst := by
  intro rules
  induction rules with
  | nil => rfl
  | cons fp rest ih => simp [extractFields, ih]

theorem lookup_extractFields (text : List Char) :
    ∀ rules : List (String × List Tok), (rules.map Prod.fst).Nodup →
    ∀ f pat, (f, pat) ∈ rules →
    List.lookup f (extractFields text rules) =
      some (Option.map normalizeCapture (searchToks pat text)) := by
  intro rules
  induction rules with
  | nil => intro _ f pat h; cases h
  | cons gp rest ih =>
    obtain ⟨g, q⟩ := gp
    intro hnd f pat hmem
    have hnd' : g ∉ rest.map Prod.fst ∧ (rest.map Prod.fst).Nodup := by
      rw [List.map_cons] at hnd
      exact List.nodup_cons.mp hnd
    rcases List.mem_cons.mp hmem with heq | htail
    · have h1 : f = g := congrArg Prod.fst heq
      have h2 : pat = q := congrArg Prod.snd heq
      subst h1; subst h2
      simp [extractFields, List.lookup]
    · have hne : f ≠ g := by
        intro hfe
        exact hnd'.1 (hfe ▸ List.mem_map_of_mem Prod.fst htail)
      have hbeq : (f == g) = false := beq_eq_false_iff_ne.mpr hne
      rw [extractFields]
      rw [List.lookup, hbeq]
      exact ih hnd'.2 f pat htail

theorem lookup_append_some (f : String) :
    ∀ (l r : List (String × Option (List Char))) (v : Option (List Char)),
    List.lookup f l = some v → List.lookup f (l ++ r) = some v := by
  intro l r
  induction l with
  | nil => intro v h; cases h
  | cons p rest ih =>
    obtain ⟨k, b⟩ := p
    intro v h
    rw [List.lookup] at h
    rw [List.cons_append, List.lookup]
    cases hbeq : (f == k) with
    | true => rw [hbeq] at h; exact h
    | false => rw [hbeq] at h; exact ih v h

theorem lookup_append_nomem (f : String) :
    ∀ (l r : List (String × Option (List Char))), f ∉ l.map Prod.fst →
    List.lookup f (l ++ r) = List.lookup f r := by
  intro l r
  induction l with
  | nil => intro _; rfl
  | cons p rest ih =>
    obtain ⟨k, b⟩ := p
    intro hno
    have hne : f ≠ k := by
      intro hfe
      exact hno (by rw [List.map_cons]; exact hfe ▸ List.mem_cons_self _ _)
    have hbeq : (f == k) = false := beq_eq_false_iff_ne.mpr hne
    rw [List.cons_append, List.lookup, hbeq]
    exact ih (fun hm => hno (by rw [List.map_cons]; exact List.mem_cons_of_mem _ hm))

/-- C2: each field is extracted independently — its stored value is a
function of its own pattern and the text alone: the normalized capture when
the pattern's search succeeds, and the explicit absent value None (not an
empty string) when the search fails.  In particular a failing pattern
neither aborts nor alters any other field of the record. -/
theorem C2_field_independent_absent :
    ∀ (text : List Char) (dt : Option String) (f : String) (pat : List Tok),
    (f, pat) ∈ patternsFor dt →
    List.lookup f (extract_data_by_type text dt) =
      some (Option.map normalizeCapture (searchToks pat text)) ∧
    (searchToks pat text = none →
      List.lookup f (extract_data_by_type text dt) = some none) := by
  intro text dt f pat hmem
  have hnd : ((patternsFor dt).map Prod.fst).Nodup := by
    unfold patternsFor
    by_cases h : dt = some "type_1"
    · rw [if_pos h]; decide
    · rw [if_neg h]; decide
  have hl := lookup_extractFields text (patternsFor dt) hnd f pat hmem
  have hA : List.lookup f (extract_data_by_type text dt) =
      some (Option.map normalizeCapture (searchToks pat text)) := by
    unfold extract_data_by_type
    exact lookup_append_some f _ _ _ hl
  refine ⟨hA, fun hn => ?_⟩
  rw [hA, hn]
  rfl

/-- C2 witness: on a text without the "Tracker" label, the "Tracker" field
of a type_1 record is stored as None. -/
theorem C2_field_independent_absent_witness :
    List.lookup "Tracker" (extract_data_by_type ("no labels at all").toList (some "type_1")) =
      some none :=
  (C2_field_independent_absent ("no labels at all").toList (some "type_1") "Tracker"
    [Tok.lit ("Tracker").toList, Tok.ws, Tok.cap CC.anyChar true,
     Tok.ws, Tok.lit ("Inspector").toList] (by decide)).2 (by decide)

/-- C3: every record of a successfully classified document carries exactly
the key set of its resolved type's rule table (12 fields for type_1, 11 for
type_2) followed by the two metadata fields "Document Type" and
"Source File", with no duplicates, for every input text. -/
theorem C3_record_shape : ∀ (text : List Char) (name : String) (dt : String),
    detect_document_type text = some dt →
    ∃ r, process_pdf_record text name = some r ∧
      r.map Prod.fst = (patternsFor (some dt)).map Prod.fst ++ ["Document Type", "Source File"] ∧
      (r.map Prod.fst).Nodup ∧
      (PATTERNS_TYPE_1.map Prod.fst).length = 12 ∧
      (PATTERNS_TYPE_2.map Prod.fst).length = 11 ∧
      (dt = "type_1" ∨ dt = "type_2") := by
  intro text name dt hdet
  have hdt : dt = "type_1" ∨ dt = "type_2" := by
    unfold detect_document_type at hdet
    by_cases h1 : (searchToks [Tok.lit ("Document No.").toList] text).isSome = true
    · rw [if_pos h1] at hdet
      injection hdet with h
      right; exact h.symm
    · rw [if_neg h1] at hdet
      by_cases h2 : (searchToks [Tok.lit ("Store ID and Name").toList] text).isSome = true
      · rw [if_pos h2] at hdet
        injection hdet with h
        left; exact h.symm
      · rw [if_neg h2] at hdet
        cases hdet
  have hrec : process_pdf_record text name =
      some (extract_data_by_type text (some dt) ++ [("Source File", some name.toList)]) := by
    unfold process_pdf_record
    rw [hdet]
  have hkeys : (extract_data_by_type text (some dt) ++
        [("Source File", some name.toList)]).map Prod.fst =
      (patternsFor (some dt)).map Prod.fst ++ ["Document Type", "Source File"] := by
    unfold extract_data_by_type
    simp [List.map_append, extractFields_keys]
  refine ⟨_, hrec, hkeys, ?_, by decide, by decide, hdt⟩
  rw [hkeys]
  rcases hdt with h | h <;> rw [h] <;> decide

/-- C3 witness: a concrete classified type_1 document. -/
theorem C3_record_shape_witness :
    ∃ r, process_pdf_record ("Store ID and Name").toList "a.pdf" = some r ∧
      r.map Prod.fst =
        (patternsFor (some "type_1")).map Prod.fst ++ ["Document Type", "Source File"] ∧
      (r.map Prod.fst).Nodup ∧
      (PATTERNS_TYPE_1.map Prod.fst).length = 12 ∧
      (PATTERNS_TYPE_2.map Prod.fst).length = 11 ∧
      ("type_1" = "type_1" ∨ "type_1" = "type_2") :=
  C3_record_shape ("Store ID and Name").toList "a.pdf" "type_1" (by decide)

/-- C7: the classifier and the extractor are deterministic pure functions of
their arguments — equal inputs give equal outputs (the embedding itself is
state-free, mirroring the absence of shared mutable state and I/O in the
source functions). -/
theorem C7_pure : ∀ (t1 t2 : List Char) (dt1 dt2 : Option String),
    t1 = t2 → dt1 = dt2 →
    extract_data_by_type t1 dt1 = extract_data_by_type t2 dt2 ∧
    detect_document_type t1 = detect_document_type t2 := by
  intro t1 t2 dt1 dt2 h1 h2
  subst h1; subst h2
  exact ⟨rfl, rfl⟩

/-- C7 witness. -/
theorem C7_pure_witness :
    extract_data_by_type ("x").toList (some "type_1") =
      extract_data_by_type ("x").toList (some "type_1") ∧
    detect_document_type ("x").toList = detect_document_type ("x").toList :=
  C7_pure ("x").toList ("x").toList (some "type_1") (some "type_1") rfl rfl

/-- C9: for every doc_type other than "type_1" — including None, i.e. the
Unknown case the spec says never reaches extract — extract_data_by_type does
not reject the input: it selects the type_2 rule table and stores the
supplied doc_type verbatim under "Document Type". -/
theorem C9_non_type1_fallback : ∀ (text : List Char) (dt : Option String),
    dt ≠ some "type_1" →
    (extract_data_by_type text dt).map Prod.fst =
      PATTERNS_TYPE_2.map Prod.fst ++ ["Document Type"] ∧
    List.lookup "Document Type" (extract_data_by_type text dt) =
      some (Option.map String.toList dt) := by
  intro text dt h
  have hp : patternsFor dt = PATTERNS_TYPE_2 := by
    unfold patternsFor
    rw [if_neg h]
  constructor
  · unfold extract_data_by_type
    rw [hp]
    simp [List.map_append, extractFields_keys]
  · unfold extract_data_by_type
    rw [hp]
    have hno : "Document Type" ∉ (extractFields text PATTERNS_TYPE_2).map Prod.fst := by
      rw [extractFields_keys]
      decide
    rw [lookup_append_nomem _ _ _ hno]
    rfl

/-- C9 witness: extract invoked with None (the Unknown case). -/
theorem C9_non_type1_fallback_witness :
    (extract_data_by_type ("whatever").toList none).map Prod.fst =
      PATTERNS_TYPE_2.map Prod.fst ++ ["Document Type"] ∧
    List.lookup "Document Type" (extract_data_by_type ("whatever").toList none) =
      some (Option.map String.toList none) :=
  C9_non_type1_fallback ("whatever").toList none (by decide)

theorem patternsFor_keys_nodup (dt : Option String) :
    ((patternsFor dt).map Prod.fst).Nodup := by
  unfold patternsFor
  by_cases h : dt = some "type_1"
  · rw [if_pos h]; decide
  · rw [if_neg h]; decide

/-- C4: the TypeA scenario — classification and the full extracted record,
with "Inspection" capturing the line immediately before the
"Store ID and Name" marker and all unlabelled fields absent. -/
theorem C4_typeA_scenario :
    detect_document_type
      ("Jane Doe\nStore ID and Name\n001 - Main St\nTracker\nINS-2024\nInspector\nJohn Smith").toList
      = some "type_1" ∧
    extract_data_by_type
      ("Jane Doe\nStore ID and Name\n001 - Main St\nTracker\nINS-2024\nInspector\nJohn Smith").toList
      (some "type_1") =
      [ ("Inspection", some ("Jane Doe").toList),
        ("Store ID and Name", some ("001 - Main St").toList),
        ("Tracker", some ("INS-2024").toList),
        ("Inspector", some ("John Smith").toList),
        ("Project Team PIC", none),
        ("Project Team Present", none),
        ("Contractor PIC", none),
        ("Contractor Present", none),
        ("Issue Date", none),
        ("Inspection Date", none),
        ("Report Date", none),
        ("Handover Date", none),
        ("Document Type", some ("type_1").toList) ] := by
  constructor
  · decide
  · decide

/-- C6: totality and benign behaviour on degenerate input — for every text
and doc_type the extractor returns a record with the full key set, the
classifier always returns one of its three values, and on the empty string
every rule field of the record is the absent value None. -/
theorem C6_total_on_any_input :
    (∀ (text : List Char) (dt : Option String),
      (extract_data_by_type text dt).map Prod.fst =
        (patternsFor dt).map Prod.fst ++ ["Document Type"]) ∧
    (∀ text : List Char, detect_document_type text = some "type_2" ∨
      detect_document_type text = some "type_1" ∨ detect_document_type text = none) ∧
    (∀ (dt : Option String) (f : String) (pat : List Tok), (f, pat) ∈ patternsFor dt →
      List.lookup f (extract_data_by_type [] dt) = some none) := by
  refine ⟨?_, ?_, ?_⟩
  · intro text dt
    unfold extract_data_by_type
    simp [List.map_append, extractFields_keys]
  · intro text
    unfold detect_document_type
    by_cases h1 : (searchToks [Tok.lit ("Document No.").toList] text).isSome = true
    · rw [if_pos h1]; left; rfl
    · rw [if_neg h1]
      by_cases h2 : (searchToks [Tok.lit ("Store ID and Name").toList] text).isSome = true
      · rw [if_pos h2]; right; left; rfl
      · rw [if_neg h2]; right; right; rfl
  · intro dt f pat hmem
    have hp : searchToks pat [] = none := by
      revert hmem
      unfold patternsFor
      by_cases h : dt = some "type_1"
      · rw [if_pos h]
        intro hmem
        fin_cases hmem <;> decide
      · rw [if_neg h]
        intro hmem
        fin_cases hmem <;> decide
    have hl := lookup_extractFields [] (patternsFor dt) (patternsFor_keys_nodup dt) f pat hmem
    rw [hp] at hl
    unfold extract_data_by_type
    exact (lookup_append_some f _ _ _ hl).trans rfl

/-- C6 witness: the "Location" field of a type_2 record on the empty page
text is absent. -/
theorem C6_total_on_any_input_witness :
    List.lookup "Location" (extract_data_by_type [] none) = some none :=
  C6_total_on_any_input.2.2 none "Location"
    [Tok.lit ("Location").toList, Tok.ws, Tok.cap CC.anyChar true,
     Tok.ws, Tok.lit ("Contractor Present").toList] (by decide)

/-- C10: a matched field can be stored as a present empty string, distinct
from the absent value: on the text "Inspector  " (label followed only by
spaces) the "Inspector" pattern matches a whitespace-only capture, which
normalizes to the stored empty string, while an unmatched field is stored
as None — and the two are different values. -/
theorem C10_present_empty_value :
    List.lookup "Inspector"
      (extract_data_by_type ("Inspector  ").toList (some "type_1")) = some (some []) ∧
    List.lookup "Report Date"
      (extract_data_by_type ("Inspector  ").toList (some "type_1")) = some none ∧
    some ([] : List Char) ≠ (none : Option (List Char)) := by
  exact ⟨by decide, by decide, by decide⟩

/-! ### Soundness of the matcher with respect to the declarative semantics -/

theorem firstSome_eq_some : ∀ (f : Nat → Option (List Char)) (ks : List Nat) (res : List Char),
    firstSome f ks = some res → ∃ k, k ∈ ks ∧ f k = some res := by
  intro f ks
  induction ks with
  | nil => intro res h; cases h
  | cons k ks ih =>
    intro res h
    rw [firstSome] at h
    cases hfk : f k with
    | some r =>
      rw [hfk] at h
      have h' : some r = some res := h
      injection h' with h'
      exact ⟨k, List.mem_cons_self _ _, by rw [hfk, h']⟩
    | none =>
      rw [hfk] at h
      have h' : firstSome f ks = some res := h
      rcases ih res h' with ⟨k', hk', hfk'⟩
      exact ⟨k', List.mem_cons_of_mem _ hk', hfk'⟩

theorem mem_greedyIdx (m k : Nat) : k ∈ greedyIdx m → 1 ≤ k ∧ k ≤ m := by
  intro h
  rcases List.mem_map.mp h with ⟨i, hi, hk⟩
  have := List.mem_range.mp hi
  omega

theorem mem_lazyIdx (m k : Nat) : k ∈ lazyIdx m → 1 ≤ k ∧ k ≤ m := by
  intro h
  rcases List.mem_map.mp h with ⟨i, hi, hk⟩
  have := List.mem_range.mp hi
  omega

theorem take_all_of_le_runLen (p : Char → Bool) : ∀ (s : List Char) (k : Nat),
    k ≤ runLen p s → ∀ c ∈ s.take k, p c = true := by
  intro s
  induction s with
  | nil => intro k hk c hc; simp at hc
  | cons a s ih =>
    intro k hk c hc
    cases k with
    | zero => simp at hc
    | succ k' =>
      by_cases hp : p a = true
      · rw [List.take_succ_cons] at hc
        rcases List.mem_cons.mp hc with rfl | hc'
        · exact hp
        · refine ih k' ?_ c hc'
          have hrl : runLen p (a :: s) = runLen p s + 1 := by
            unfold runLen
            rw [List.takeWhile_cons_of_pos hp]
            rfl
          omega
      · have hrl : runLen p (a :: s) = 0 := by
          unfold runLen
          rw [List.takeWhile_cons_of_neg (by simpa using hp)]
          rfl
        omega

theorem take_ne_nil_runLen (p : Char → Bool) (s : List Char) (k : Nat)
    (h1 : 1 ≤ k) (h2 : k ≤ runLen p s) : s.take k ≠ [] := by
  cases s with
  | nil =>
    unfold runLen at h2
    simp at h2
    omega
  | cons a s =>
    cases k with
    | zero => omega
    | succ k' => simp [List.take_succ_cons]

theorem matchToks_sound : ∀ (ts : List Tok) (s : List Char) (acc : Option (List Char))
    (res : List Char), matchToks ts s acc = some res →
    ∃ m rest tc, s = m ++ rest ∧ ToksMatch ts m rest tc ∧ res = tc.getD (acc.getD []) := by
  intro ts
  induction ts with
  | nil =>
    intro s acc res h
    rw [matchToks] at h
    injection h with h
    exact ⟨[], s, none, rfl, ToksMatch.nil s, h.symm⟩
  | cons t ts ih =>
    intro s acc res h
    cases t with
    | lit l =>
      rw [matchToks] at h
      by_cases hp : l.isPrefixOf s = true
      · rw [if_pos hp] at h
        rcases ih _ _ _ h with ⟨m, rest, tc, hs, hm, hres⟩
        rcases (isPrefixOf_eq_ex l s).mp hp with ⟨t', ht'⟩
        have hdrop : s.drop l.length = t' := by rw [ht']; simp
        rw [hdrop] at hs
        exact ⟨l ++ m, rest, tc, by rw [ht', hs, List.append_assoc],
          ToksMatch.lit _ _ _ _ _ hm, hres⟩
      · rw [if_neg hp] at h
        cases h
    | ws =>
      rw [matchToks] at h
      rcases firstSome_eq_some _ _ _ h with ⟨k, hk, hfk⟩
      rcases mem_greedyIdx _ _ hk with ⟨hk1, hk2⟩
      rcases ih _ _ _ hfk with ⟨m, rest, tc, hs, hm, hres⟩
      refine ⟨s.take k ++ m, rest, tc, ?_, ?_, hres⟩
      · rw [List.append_assoc, ← hs, List.take_append_drop]
      · exact ToksMatch.ws _ _ _ _ _ (take_ne_nil_runLen isWS s k hk1 hk2)
          (take_all_of_le_runLen isWS s k hk2) hm
    | cap cc lz =>
      rw [matchToks] at h
      have hbnd : ∃ k, (1 ≤ k ∧ k ≤ runLen cc.test s) ∧
          matchToks ts (s.drop k) (some (s.take k)) = some res := by
        by_cases hlz : lz = true
        · rw [hlz, if_pos rfl] at h
          rcases firstSome_eq_some _ _ _ h with ⟨k, hk, hfk⟩
          exact ⟨k, mem_lazyIdx _ _ hk, hfk⟩
        · rw [Bool.not_eq_true] at hlz
          rw [hlz] at h
          rw [show (if false = true then lazyIdx (runLen cc.test s)
              else greedyIdx (runLen cc.test s)) = greedyIdx (runLen cc.test s) from rfl] at h
          rcases firstSome_eq_some _ _ _ h with ⟨k, hk, hfk⟩
          exact ⟨k, mem_greedyIdx _ _ hk, hfk⟩
      rcases hbnd with ⟨k, ⟨hk1, hk2⟩, hfk⟩
      rcases ih _ _ _ hfk with ⟨m, rest, tc, hs, hm, hres⟩
      refine ⟨s.take k ++ m, rest, some (tc.getD (s.take k)), ?_, ?_, ?_⟩
      · rw [List.append_assoc, ← hs, List.take_append_drop]
      · exact ToksMatch.cap _ _ _ _ _ _ _ (take_ne_nil_runLen cc.test s k hk1 hk2)
          (take_all_of_le_runLen cc.test s k hk2) hm
      · exact hres
    | pl cc =>
      rw [matchToks] at h
      rcases firstSome_eq_some _ _ _ h with ⟨k, hk, hfk⟩
      rcases mem_greedyIdx _ _ hk with ⟨hk1, hk2⟩
      rcases ih _ _ _ hfk with ⟨m, rest, tc, hs, hm, hres⟩
      refine ⟨s.take k ++ m, rest, tc, ?_, ?_, hres⟩
      · rw [List.append_assoc, ← hs, List.take_append_drop]
      · exact ToksMatch.pl _ _ _ _ _ _ (take_ne_nil_runLen cc.test s k hk1 hk2)
          (take_all_of_le_runLen cc.test s k hk2) hm
    | look l =>
      rw [matchToks] at h
      by_cases hl : lookOk l s = true
      · rw [if_pos hl] at h
        rcases ih _ _ _ h with ⟨m, rest, tc, hs, hm, hres⟩
        refine ⟨m, rest, tc, hs, ?_, hres⟩
        exact ToksMatch.look _ _ _ _ _ (by rw [← hs]; exact hl) hm
      · rw [if_neg hl] at h
        cases h

theorem searchToks_sound (ts : List Tok) : ∀ (s res : List Char),
    searchToks ts s = some res →
    ∃ pre m rest tc, s = pre ++ m ++ rest ∧ ToksMatch ts m rest tc ∧ res = tc.getD [] := by
  intro s
  induction s with
  | nil =>
    intro res h
    rw [searchToks] at h
    rcases matchToks_sound _ _ _ _ h with ⟨m, rest, tc, hs, hm, hres⟩
    exact ⟨[], m, rest, tc, by simpa using hs, hm, hres⟩
  | cons c cs ih =>
    intro res h
    rw [searchToks] at h
    cases hm0 : matchToks ts (c :: cs) none with
    | some r =>
      rw [hm0] at h
      have h' : some r = some res := h
      injection h' with h'
      rcases matchToks_sound _ _ _ _ hm0 with ⟨m, rest, tc, hs, hmm, hres⟩
      exact ⟨[], m, rest, tc, by simpa using hs, hmm, by rw [← h']; exact hres⟩
    | none =>
      rw [hm0] at h
      have h' : searchToks ts cs = some res := h
      rcases ih res h' with ⟨pre, m, rest, tc, hs, hmm, hres⟩
      exact ⟨c :: pre, m, rest, tc, by rw [hs]; simp [List.append_assoc], hmm, hres⟩

theorem compound_sound (label : String) (text res : List Char)
    (h : searchToks (compoundName label) text = some res) :
    ∃ pre w1 a w2 w3 tl,
      text = pre ++ label.toList ++ w1 ++ a ++ w2 ++ ("Name").toList ++ w3 ++ res ++ tl ∧
      w1 ≠ [] ∧ (∀ x ∈ w1, isWS x = true) ∧
      a ≠ [] ∧ (∀ x ∈ a, x ≠ '\n') ∧
      w2 ≠ [] ∧ (∀ x ∈ w2, isWS x = true) ∧
      w3 ≠ [] ∧ (∀ x ∈ w3, isWS x = true) ∧
      res ≠ [] ∧ (∀ x ∈ res, x ≠ '\n') := by
  rcases searchToks_sound _ _ _ h with ⟨pre, m, rest, tc, hs, hm, hres⟩
  unfold compoundName at hm
  cases hm with
  | lit _ _ m1 _ _ hm1 =>
    cases hm1 with
    | ws w1 _ m2 _ _ hw1ne hw1 hm2 =>
      cases hm2 with
      | pl _ a _ m3 _ _ hane ha hm3 =>
        cases hm3 with
        | ws w2 _ m4 _ _ hw2ne hw2 hm4 =>
          cases hm4 with
          | lit _ _ m5 _ _ hm5 =>
            cases hm5 with
            | ws w3 _ m6 _ _ hw3ne hw3 hm6 =>
              cases hm6 with
              | cap _ _ wc _ m7 _ tc7 hwcne hwc hm7 =>
                cases hm7 with
                | nil =>
                  have hres' : res = wc := hres
                  subst hres'
                  refine ⟨pre, w1, a, w2, w3, rest, ?_, hw1ne, hw1, hane, ?_,
                    hw2ne, hw2, hw3ne, hw3, hwcne, ?_⟩
                  · rw [hs]
                    simp [List.append_assoc]
                  · intro x hx
                    have := ha x hx
                    rw [CC.test] at this
                    simpa using this
                  · intro x hx
                    have := hwc x hx
                    rw [CC.test] at this
                    simpa using this

/-- C5: the "Contractor Name" and "Project PIC Name" rules of
PATTERNS_TYPE_2 are compound anchors: whenever one of them matches, the text
decomposes as its own section label, followed by intervening text, followed
by the literal "Name" label, and the captured value is the (non-newline) run
after "Name"; and on the scenario text the extractor yields
Contractor Present = "Yes" and Contractor Name = "Acme Co". -/
theorem C5_compound_anchor :
    (∀ text res : List Char,
      searchToks (compoundName "Contractor Present") text = some res →
      ∃ pre w1 a w2 w3 tl,
        text = pre ++ ("Contractor Present").toList ++ w1 ++ a ++ w2 ++
          ("Name").toList ++ w3 ++ res ++ tl ∧
        w1 ≠ [] ∧ (∀ x ∈ w1, isWS x = true) ∧
        a ≠ [] ∧ (∀ x ∈ a, x ≠ '\n') ∧
        w2 ≠ [] ∧ (∀ x ∈ w2, isWS x = true) ∧
        w3 ≠ [] ∧ (∀ x ∈ w3, isWS x = true) ∧
        res ≠ [] ∧ (∀ x ∈ res, x ≠ '\n')) ∧
    (∀ text res : List Char,
      searchToks (compoundName "Project PIC Present") text = some res →
      ∃ pre w1 a w2 w3 tl,
        text = pre ++ ("Project PIC Present").toList ++ w1 ++ a ++ w2 ++
          ("Name").toList ++ w3 ++ res ++ tl ∧
        w1 ≠ [] ∧ (∀ x ∈ w1, isWS x = true) ∧
        a ≠ [] ∧ (∀ x ∈ a, x ≠ '\n') ∧
        w2 ≠ [] ∧ (∀ x ∈ w2, isWS x = true) ∧
        w3 ≠ [] ∧ (∀ x ∈ w3, isWS x = true) ∧
        res ≠ [] ∧ (∀ x ∈ res, x ≠ '\n')) ∧
    ("Contractor Name", compoundName "Contractor Present") ∈ PATTERNS_TYPE_2 ∧
    ("Project PIC Name", compoundName "Project PIC Present") ∈ PATTERNS_TYPE_2 ∧
    List.lookup "Contractor Present"
      (extract_data_by_type
        ("Document No.\nDOC-55\nAudit Title\nQ1 Review\nContractor Present\nYes\nName\nAcme Co").toList
        (some "type_2")) = some (some ("Yes").toList) ∧
    List.lookup "Contractor Name"
      (extract_data_by_type
        ("Document No.\nDOC-55\nAudit Title\nQ1 Review\nContractor Present\nYes\nName\nAcme Co").toList
        (some "type_2")) = some (some ("Acme Co").toList) := by
  refine ⟨fun text res h => compound_sound "Contractor Present" text res h,
    fun text res h => compound_sound "Project PIC Present" text res h,
    by decide, by decide, by decide, by decide⟩

/-- C5 witness: the decomposition applied to the concrete scenario text. -/
theorem C5_compound_anchor_witness :
    ∃ pre w1 a w2 w3 tl,
      ("Document No.\nDOC-55\nAudit Title\nQ1 Review\nContractor Present\nYes\nName\nAcme Co").toList =
        pre ++ ("Contractor Present").toList ++ w1 ++ a ++ w2 ++
          ("Name").toList ++ w3 ++ ("Acme Co").toList ++ tl ∧
      w1 ≠ [] ∧ (∀ x ∈ w1, isWS x = true) ∧
      a ≠ [] ∧ (∀ x ∈ a, x ≠ '\n') ∧
      w2 ≠ [] ∧ (∀ x ∈ w2, isWS x = true) ∧
      w3 ≠ [] ∧ (∀ x ∈ w3, isWS x = true) ∧
      ("Acme Co").toList ≠ [] ∧ (∀ x ∈ ("Acme Co").toList, x ≠ '\n') :=
  C5_compound_anchor.1
    ("Document No.\nDOC-55\nAudit Title\nQ1 Review\nContractor Present\nYes\nName\nAcme Co").toList
    ("Acme Co").toList (by decide)

/-! ### Whitespace normalization -/

theorem splitStep_ne_nil (c : Char) (acc : List (List Char)) : splitStep c acc ≠ [] := by
  unfold splitStep
  by_cases h : isWS c = true
  · rw [if_pos h]
    simp
  · rw [if_neg h]
    cases acc <;> simp

theorem pySplitAll_ne_nil (s : List Char) : pySplitAll s ≠ [] := by
  cases s with
  | nil => simp [pySplitAll]
  | cons c cs =>
    unfold pySplitAll
    rw [List.foldr_cons]
    exact splitStep_ne_nil _ _

theorem mem_pySplitAll_not_ws : ∀ (s : List Char) (w : List Char), w ∈ pySplitAll s →
    ∀ c ∈ w, isWS c = false := by
  intro s
  induction s with
  | nil =>
    intro w hw c hc
    simp [pySplitAll] at hw
    subst hw
    simp at hc
  | cons a cs ih =>
    intro w hw c hc
    rw [show pySplitAll (a :: cs) = splitStep a (pySplitAll cs) from rfl] at hw
    by_cases ha : isWS a = true
    · rw [show splitStep a (pySplitAll cs) = [] :: pySplitAll cs from by
        unfold splitStep; rw [if_pos ha]] at hw
      rcases List.mem_cons.mp hw with rfl | hw'
      · simp at hc
      · exact ih w hw' c hc
    · cases hacc : pySplitAll cs with
      | nil => exact absurd hacc (pySplitAll_ne_nil cs)
      | cons w0 ws0 =>
        rw [hacc] at hw
        rw [show splitStep a (w0 :: ws0) = (a :: w0) :: ws0 from by
          unfold splitStep; rw [if_neg ha]] at hw
        rcases List.mem_cons.mp hw with rfl | hw'
        · rcases List.mem_cons.mp hc with rfl | hc'
          · rwa [Bool.not_eq_true] at ha
          · exact ih w0 (by rw [hacc]; exact List.mem_cons_self _ _) c hc'
        · exact ih w (by rw [hacc]; exact List.mem_cons_of_mem _ hw') c hc

theorem foldr_word (x : List Char) (acc : List (List Char)) :
    ∀ w : List Char, (∀ c ∈ w, isWS c = false) →
    List.foldr splitStep (x :: acc) w = (w ++ x) :: acc := by
  intro w
  induction w with
  | nil => intro _; simp
  | cons c w' ih =>
    intro hw
    rw [List.foldr_cons, ih (fun d hd => hw d (List.mem_cons_of_mem _ hd))]
    unfold splitStep
    have hc : isWS c = false := hw c (List.mem_cons_self _ _)
    rw [if_neg (by simp [hc])]
    rfl

theorem pySplitAll_word (w : List Char) (hw : ∀ c ∈ w, isWS c = false) :
    pySplitAll w = [w] := by
  unfold pySplitAll
  have h := foldr_word [] [] w hw
  simpa using h

theorem intercalate_cons_two (s a b : List Char) (t : List (List Char)) :
    List.intercalate s (a :: b :: t) = a ++ s ++ List.intercalate s (b :: t) := by
  simp [List.intercalate, List.intersperse_cons₂, List.append_assoc]

theorem pySplitAll_word_sep (w t : List Char) (hw : ∀ c ∈ w, isWS c = false) :
    pySplitAll (w ++ ' ' :: t) = w :: pySplitAll t := by
  unfold pySplitAll
  rw [List.foldr_append, List.foldr_cons]
  have hstep : splitStep ' ' (List.foldr splitStep [[]] t) =
      [] :: List.foldr splitStep [[]] t := by
    unfold splitStep
    rw [if_pos (by decide)]
  rw [hstep, foldr_word [] _ w hw]
  simp

theorem pySplitAll_intercalate : ∀ words : List (List Char),
    (∀ w ∈ words, ∀ c ∈ w, isWS c = false) → words ≠ [] →
    pySplitAll (List.intercalate [' '] words) = words := by
  intro words
  induction words with
  | nil => intro _ h; exact absurd rfl h
  | cons w rest ih =>
    intro hgood _
    cases rest with
    | nil =>
      rw [show List.intercalate [' '] [w] = w from by simp [List.intercalate]]
      exact pySplitAll_word w (hgood w (List.mem_cons_self _ _))
    | cons w2 rest' =>
      have hi : List.intercalate [' '] (w :: w2 :: rest') =
          w ++ ' ' :: List.intercalate [' '] (w2 :: rest') := by
        rw [intercalate_cons_two, List.append_assoc]
        rfl
      rw [hi, pySplitAll_word_sep w _ (hgood w (List.mem_cons_self _ _))]
      rw [ih (fun u hu => hgood u (List.mem_cons_of_mem _ hu)) (by simp)]

theorem pySplit_intercalate (words : List (List Char))
    (hgood : ∀ w ∈ words, w ≠ [] ∧ ∀ c ∈ w, isWS c = false) :
    pySplit (List.intercalate [' '] words) = words := by
  cases words with
  | nil => rfl
  | cons w rest =>
    unfold pySplit
    rw [pySplitAll_intercalate _ (fun u hu => (hgood u hu).2) (by simp)]
    rw [List.filter_eq_self.mpr]
    intro u hu
    simpa using (hgood u hu).1

theorem pyStrip_eq_self_of_ends : ∀ s : List Char,
    (∃ c t, s = c :: t ∧ isWS c = false) → (∃ t c, s = t ++ [c] ∧ isWS c = false) →
    pyStrip s = s := by
  rintro s ⟨c, t, rfl, hc⟩ ⟨t', c', he, hc'⟩
  unfold pyStrip
  rw [List.dropWhile_cons_of_neg (by simp [hc])]
  rw [he, List.reverse_append]
  rw [show ([c']).reverse ++ t'.reverse = c' :: t'.reverse from by simp]
  rw [List.dropWhile_cons_of_neg (by simp [hc'])]
  simp

theorem intercalate_ends : ∀ words : List (List Char),
    (∀ w ∈ words, w ≠ [] ∧ ∀ c ∈ w, isWS c = false) → words ≠ [] →
    (∃ c t, List.intercalate [' '] words = c :: t ∧ isWS c = false) ∧
    (∃ t c, List.intercalate [' '] words = t ++ [c] ∧ isWS c = false) := by
  intro words
  induction words with
  | nil => intro _ h; exact absurd rfl h
  | cons w rest ih =>
    intro hgood _
    obtain ⟨hwne, hwchars⟩ := hgood w (List.mem_cons_self _ _)
    cases rest with
    | nil =>
      have hw : List.intercalate [' '] [w] = w := by simp [List.intercalate]
      constructor
      · obtain ⟨c, t, hcw⟩ := List.exists_cons_of_ne_nil hwne
        exact ⟨c, t, by rw [hw, hcw],
          hwchars c (by rw [hcw]; exact List.mem_cons_self _ _)⟩
      · rcases List.eq_nil_or_concat' w with hnil | ⟨t, c, hconcat⟩
        · exact absurd hnil hwne
        · exact ⟨t, c, by rw [hw, hconcat], hwchars c (by rw [hconcat]; simp)⟩
    | cons w2 rest' =>
      have hi : List.intercalate [' '] (w :: w2 :: rest') =
          w ++ ' ' :: List.intercalate [' '] (w2 :: rest') := by
        rw [intercalate_cons_two, List.append_assoc]
        rfl
      have ihr := ih (fun u hu => hgood u (List.mem_cons_of_mem _ hu)) (by simp)
      constructor
      · obtain ⟨c, t, hcw⟩ := List.exists_cons_of_ne_nil hwne
        exact ⟨c, t ++ ' ' :: List.intercalate [' '] (w2 :: rest'),
          by rw [hi, hcw]; rfl,
          hwchars c (by rw [hcw]; exact List.mem_cons_self _ _)⟩
      · rcases ihr.2 with ⟨t, c, he, hc⟩
        exact ⟨w ++ ' ' :: t, c, by rw [hi, he]; simp, hc⟩

theorem pySplit_goodness (s : List Char) :
    ∀ w ∈ pySplit s, w ≠ [] ∧ ∀ c ∈ w, isWS c = false := by
  intro w hw
  unfold pySplit at hw
  have h2 := List.mem_filter.mp hw
  exact ⟨by simpa using h2.2, mem_pySplitAll_not_ws s w h2.1⟩

theorem normalizeCapture_idem (s : List Char) :
    normalizeCapture (normalizeCapture s) = normalizeCapture s := by
  have hgood := pySplit_goodness (pyStrip s)
  cases hW : pySplit (pyStrip s) with
  | nil =>
    rw [show normalizeCapture s = [] from by unfold normalizeCapture; rw [hW]; rfl]
    rfl
  | cons w rest =>
    have hgood' : ∀ u ∈ w :: rest, u ≠ [] ∧ ∀ c ∈ u, isWS c = false := by
      rw [← hW]; exact hgood
    have hends := intercalate_ends (w :: rest) hgood' (by simp)
    have hnc : normalizeCapture s = List.intercalate [' '] (w :: rest) := by
      unfold normalizeCapture
      rw [hW]
    rw [hnc]
    show List.intercalate [' ']
      (pySplit (pyStrip (List.intercalate [' '] (w :: rest)))) = _
    rw [pyStrip_eq_self_of_ends _ hends.1 hends.2, pySplit_intercalate _ hgood']

/-- C8: the whitespace normalization applied to every captured value (strip,
then collapse internal whitespace runs — line breaks included — to single
spaces) is idempotent; its output is a single-space-separated sequence of
nonempty whitespace-free tokens; and every value stored for a rule field is
a fixed point of the normalization. -/
theorem C8_normalize_idempotent : ∀ s : List Char,
    normalizeCapture (normalizeCapture s) = normalizeCapture s ∧
    (∃ tokens : List (List Char),
      (∀ w ∈ tokens, w ≠ [] ∧ ∀ c ∈ w, isWS c = false) ∧
      normalizeCapture s = List.intercalate [' '] tokens) ∧
    (∀ (text : List Char) (dt : Option String) (f : String) (pat : List Tok)
      (v : List Char), (f, pat) ∈ patternsFor dt →
      List.lookup f (extract_data_by_type text dt) = some (some v) →
      normalizeCapture v = v) := by
  intro s
  refine ⟨normalizeCapture_idem s, ⟨pySplit (pyStrip s), pySplit_goodness (pyStrip s), rfl⟩, ?_⟩
  intro text dt f pat v hmem hlook
  have hl := lookup_extractFields text (patternsFor dt) (patternsFor_keys_nodup dt) f pat hmem
  have hfull : List.lookup f (extract_data_by_type text dt) =
      some (Option.map normalizeCapture (searchToks pat text)) := by
    unfold extract_data_by_type
    exact lookup_append_some f _ _ _ hl
  rw [hfull] at hlook
  injection hlook with hlook
  cases hse : searchToks pat text with
  | none =>
    rw [hse] at hlook
    cases hlook
  | some cap0 =>
    rw [hse] at hlook
    have h2 : some (normalizeCapture cap0) = some v := hlook
    injection h2 with h2
    rw [← h2]
    exact normalizeCapture_idem cap0

/-- C8 witness: the stored "Inspector" value of the TypeA scenario is a
fixed point of the normalization. -/
theorem C8_normalize_idempotent_witness :
    normalizeCapture ("John Smith").toList = ("John Smith").toList :=
  (C8_normalize_idempotent []).2.2
    ("Jane Doe\nStore ID and Name\n001 - Main St\nTracker\nINS-2024\nInspector\nJohn Smith").toList
    (some "type_1") "Inspector" (lineField "Inspector") ("John Smith").toList
    (by decide) (by decide)
